import Mathlib

/-!
Verification of the kernel-construction layer of `graphtools`
(`src/graphtools/graphs.py`): `kNNGraph`, `TraditionalGraph`,
`LandmarkGraph` and `MNNGraph`.

Modelling conventions (shallow embedding):

* Matrices are total functions `Fin m → Fin n → ℚ`; numpy's floating-point
  arithmetic is idealised as exact rational arithmetic.
* The external nearest-neighbour search (`sklearn.neighbors`) is an external
  collaborator (spec §6).  Its outputs enter the embedding as plain data:
  `nbr` (the 0/1 connectivity result of `kneighbors_graph`), `dist`
  (query distances), `band` (the distance to the `knn`-th nearest
  neighbour, `distances[:, knn-1]`), and `found` (which points the
  adaptive-radius search of `build_kernel_to_data` returned; the escalation
  policy only determines this set, every unreturned entry is an implicit
  zero of the CSR matrix).
* The alpha-decay weighting `np.exp(-1 * np.power(x, decay))` is an
  external numeric routine; it enters as a function `f : ℚ → ℚ`.  Theorems
  that need its analytic properties (positive, at most 1 on nonnegative
  inputs, `f 0 = 1`, i.e. exactly the properties of `x ↦ exp(-x^decay)`)
  take them as hypotheses, and concrete instances use rational functions
  with the same properties.
* `MiniBatchKMeans` and `randomized_svd` are external collaborators; the
  cluster assignment enters `LandmarkGraph.build_landmark_op` as a function
  `clusters : Fin n → Fin L`.
-/

/-- Rectangular rational matrix, the embedding of a numpy array of shape
`[m, n]` (dense or sparse: a sparse matrix is its dense meaning, absent
entries being zeros). -/
abbrev Mat (m n : ℕ) := Fin m → Fin n → ℚ

/-- Symmetrization `K = (K + K.T) / 2` used by `kNNGraph.build_kernel`
(graphs.py line 189) and `TraditionalGraph.build_kernel` (line 715). -/
def sym_avg {n : ℕ} (K : Mat n n) : Mat n n :=
  fun i j => (K i j + K j i) / 2

/-- Entrywise sparsification `K[K < thresh] = 0` (graphs.py lines 282, 716). -/
def threshold_below {m n : ℕ} (thresh : ℚ) (K : Mat m n) : Mat m n :=
  fun i j => if K i j < thresh then 0 else K i j

/-- Binary connectivity matrix returned by
`kneighbors_graph(..., mode='connectivity')` given the search relation
`nbr i j` = "j is among i's `knn` nearest neighbours (including self,
`include_self=True`)" (graphs.py lines 179-183). -/
def connectivity {m n : ℕ} (nbr : Fin m → Fin n → Bool) : Mat m n :=
  fun i j => if nbr i j then 1 else 0

/-- The validation in `kNNGraph.__init__` (graphs.py lines 68-70): a
`ValueError` is raised iff `decay is not None and thresh <= 0`. -/
def kNNGraph_init_raises (decay : Option ℚ) (thresh : ℚ) : Bool :=
  decay.isSome && decide (thresh ≤ 0)

/-- Decay branch of `kNNGraph.build_kernel_to_data` (graphs.py lines
228-287).  Row `y` of the CSR result holds, for each data point `x` the
adaptive search returned (`found y x`), the value
`f (dist y x / band y)` (`data = distances[i] / bandwidth[i]` followed by
`K.data = np.exp(-1 * np.power(K.data, self.decay))`, the map `f` standing
for `v ↦ exp(-v^decay)`); values below `thresh` are then zeroed
(`K.data[K.data < thresh] = 0`).  Entries the search did not return are
zeros of the sparse matrix. -/
def build_kernel_to_data {m n : ℕ} (f : ℚ → ℚ) (thresh : ℚ)
    (dist : Fin m → Fin n → ℚ) (band : Fin m → ℚ)
    (found : Fin m → Fin n → Bool) : Mat m n :=
  fun y x =>
    if found y x then
      (if f (dist y x / band y) < thresh then 0 else f (dist y x / band y))
    else 0

/-- The body of `kNNGraph.build_kernel` (graphs.py lines 175-190): a binary
connectivity matrix when `decay is None or thresh == 1`, the alpha-decay
kernel `build_kernel_to_data(self.data_nu)` otherwise; in both cases
symmetrized by `(K + K.T) / 2`. -/
def kNNGraph_build_kernel {n : ℕ} (decay : Option ℚ) (thresh : ℚ)
    (f : ℚ → ℚ) (nbr : Fin n → Fin n → Bool)
    (dist : Fin n → Fin n → ℚ) (band : Fin n → ℚ)
    (found : Fin n → Fin n → Bool) : Mat n n :=
  let K : Mat n n :=
    if decay = none ∨ thresh = 1 then connectivity nbr
    else build_kernel_to_data f thresh dist band found
  sym_avg K

/-- Modelled from the spec: `set_diagonal` from `graphtools.utils` (used at
graphs.py line 700, not under src/): "diagonal forced to 1 (self-affinity),
rest untouched" (spec §4.2), here for an arbitrary diagonal value. -/
def set_diagonal {n : ℕ} (K : Mat n n) (v : ℚ) : Mat n n :=
  fun i j => if i = j then v else K i j

/-- Per-row adaptive bandwidth of `TraditionalGraph.build_kernel`
(graphs.py lines 709-710): `knn_dist = np.partition(pdx, knn, axis=1)[:, :knn]`
selects the `knn` smallest entries of each row, and `epsilon` is their
maximum, i.e. the `knn`-th smallest entry (1-indexed) of the row. -/
def trad_epsilon {n : ℕ} (pdx : Mat n n) (knn : ℕ) (i : Fin n) : ℚ :=
  (((List.finRange n).map (pdx i)).insertionSort (· ≤ ·)).getD (knn - 1) 0

/-- The body of `TraditionalGraph.build_kernel` (graphs.py lines 692-717).
`data` embeds `self.data_nu`; for `precomputed=None` the pairwise-distance
matrix `squareform(pdist(self.data_nu, metric))` computed by the external
metric routine enters as `pdist_data`.  `f` stands for the alpha decay
`v ↦ exp(-v^decay)` applied entrywise (line 712).  All paths end with
`K = (K + K.T) / 2` and `K[K < self.thresh] = 0` (lines 715-716). -/
def TraditionalGraph_build_kernel {n : ℕ} (f : ℚ → ℚ) (thresh : ℚ)
    (knn : ℕ) (precomputed : Option String)
    (data : Mat n n) (pdist_data : Mat n n) : Mat n n :=
  let K : Mat n n :=
    if precomputed = some "affinity" then data
    else if precomputed = some "adjacency" then set_diagonal data 1
    else
      let pdx : Mat n n := if precomputed = some "distance" then data else pdist_data
      fun i j => f (pdx i j / trad_epsilon pdx knn i)
  threshold_below thresh (sym_avg K)

/-- Outcome of `TraditionalGraph.__init__` (graphs.py lines 593-625):
either a raised `ValueError`, or acceptance carrying the effective `n_pca`
and whether a `RuntimeWarning` was emitted. -/
inductive TradInitResult where
  | error : TradInitResult
  | ok (n_pca : Option ℕ) (warned : Bool) : TradInitResult
deriving DecidableEq

/-- The validation in `TraditionalGraph.__init__` (graphs.py lines
597-617), in source order: if `precomputed` and `n_pca` are both given,
`n_pca` is set to `None` and a `RuntimeWarning` is emitted (not an error);
a missing `decay` errors unless the data is a precomputed affinity or
adjacency; an unrecognized `precomputed` tag, a non-square precomputed
matrix, and a precomputed matrix with a negative entry each error. -/
def TraditionalGraph_init {r c : ℕ} (data : Fin r → Fin c → ℚ)
    (decay : Option ℚ) (n_pca : Option ℕ) (precomputed : Option String) :
    TradInitResult :=
  let eff : Option ℕ × Bool :=
    if precomputed ≠ none ∧ n_pca ≠ none then (none, true) else (n_pca, false)
  if decay = none ∧ precomputed ≠ some "affinity" ∧ precomputed ≠ some "adjacency" then
    .error
  else
    match precomputed with
    | none => .ok eff.1 eff.2
    | some p =>
      if p ≠ "distance" ∧ p ≠ "affinity" ∧ p ≠ "adjacency" then .error
      else if r ≠ c then .error
      else if ∃ i j, data i j < 0 then .error
      else .ok eff.1 eff.2

/-- The mutable state of a `kNNGraph` seen by `set_params` (graphs.py
lines 87-128): the kernel parameters, the whitelisted mutable parameters,
and the cached kernel (of abstract type `κ`, owned by the base class and
never touched by `kNNGraph.set_params`). -/
structure KNNState (κ : Type) where
  knn : ℕ
  decay : Option ℚ
  distance : String
  thresh : ℚ
  n_jobs : ℤ
  random_state : ℤ
  verbose : ℕ
  kernel : κ

/-- The keyword arguments passed to `kNNGraph.set_params`; `none` means the
key is absent from `params`. -/
structure KNNSetParams where
  knn : Option ℕ := none
  decay : Option (Option ℚ) := none
  distance : Option String := none
  thresh : Option ℚ := none
  n_jobs : Option ℤ := none
  random_state : Option ℤ := none
  verbose : Option ℕ := none

/-- The body of `kNNGraph.set_params` (graphs.py lines 110-128): the four
guard clauses run first, in source order, each raising a `ValueError`
(returned as `some message` with the state unchanged); note the `thresh`
guard (lines 117-119) additionally requires `self.decay != 0`.  Only then
are `n_jobs`, `random_state` and `verbose` assigned. -/
def kNNGraph_set_params {κ : Type} (s : KNNState κ) (p : KNNSetParams) :
    Option String × KNNState κ :=
  if p.knn ≠ none ∧ p.knn ≠ some s.knn then
    (some "Cannot update knn. Please create a new graph", s)
  else if p.decay ≠ none ∧ p.decay ≠ some s.decay then
    (some "Cannot update decay. Please create a new graph", s)
  else if p.distance ≠ none ∧ p.distance ≠ some s.distance then
    (some "Cannot update distance. Please create a new graph", s)
  else if p.thresh ≠ none ∧ p.thresh ≠ some s.thresh ∧ s.decay ≠ some 0 then
    (some "Cannot update thresh. Please create a new graph", s)
  else
    (none, { s with
      n_jobs := p.n_jobs.getD s.n_jobs,
      random_state := p.random_state.getD s.random_state,
      verbose := p.verbose.getD s.verbose })

/-- The symmetrization policy `gamma` of `MNNGraph` (graphs.py lines
780-785): `'+'`, `'*'`, a scalar, or a matrix of per-batch-pair scalars. -/
inductive Gamma where
  | plus : Gamma
  | times : Gamma
  | scalar (g : ℚ) : Gamma
  | matrix (g : ℕ → ℕ → ℚ) : Gamma

/-- The sorted unique batch labels `self.samples = np.unique(sample_idx)`
(graphs.py line 804). -/
def uniqueSorted {n : ℕ} (lab : Fin n → ℕ) : List ℕ :=
  (((List.finRange n).map lab).dedup).insertionSort (· ≤ ·)

/-- Number of points carrying label `l`: the size of the data selection
`self.data_nu[self.sample_idx == idx]` (graphs.py line 975), and also the
row/column extent of a boolean mask `self.sample_idx == l`. -/
def countLab {n : ℕ} (lab : Fin n → ℕ) (l : ℕ) : ℕ :=
  (Finset.univ.filter (fun p => lab p = l)).card

/-- Modelled from the spec: `set_submatrix` from `graphtools.utils`
(graphs.py lines 1000, 1020-1024, not under src/): writes the block
`values` into the rows and columns selected by the two boolean masks
("write both (i,j) and (j,i) blocks", spec §4.4).  The numpy fancy-index
assignment it performs requires the block shape — `(nr, nc)`, the shape of
the `values` array — to match the mask sizes, and raises otherwise
(modelled as `none`). -/
def set_submatrix {n : ℕ} (K : Mat n n) (rmask cmask : Fin n → Prop)
    [DecidablePred rmask] [DecidablePred cmask] (nr nc : ℕ) (S : Mat n n) :
    Option (Mat n n) :=
  if (Finset.univ.filter rmask).card = nr ∧ (Finset.univ.filter cmask).card = nc then
    some (fun p q => if rmask p ∧ cmask q then S p q else K p q)
  else none

/-- All ordered index pairs `(i, j)` visited by the double loop
`for i, X in enumerate(self.subgraphs): for j, Y in enumerate(...)`
(graphs.py lines 989-990). -/
def allPairs (B : ℕ) : List (ℕ × ℕ) :=
  (List.range B).product (List.range B)

/-- The index pairs `(i, j)` with `i ≤ j` visited by the matrix-gamma loop
`for i in range(len(self.samples)): for j in range(i, len(self.samples))`
(graphs.py lines 1012-1013). -/
def upperPairs (B : ℕ) : List (ℕ × ℕ) :=
  (allPairs B).filter (fun ij => decide (ij.1 ≤ ij.2))

/-- One iteration of the MNN assembly loop (graphs.py lines 989-1001).
`samples` is the sorted unique label list, `ij` the pair of enumeration
indices.  `cross k li lj` embeds
`subgraphs[j].build_kernel_to_data(subgraphs[i].data_nu, knn=k)` for the
batches labelled `li = samples[i]`, `lj = samples[j]` as a globally indexed
matrix (entry `(p, q)` meaningful for `lab p = li`, `lab q = lj`, matching
the within-batch orderings, which the row selections preserve).  The block
is scaled by `beta` when `i == j`, and written through `set_submatrix` with
the buggy masks `self.sample_idx == i` / `== j` — the enumeration indices,
not the labels. -/
def MNN_assemble_step {n : ℕ} (lab : Fin n → ℕ) (beta : ℚ) (wknn : ℕ → ℕ)
    (cross : ℕ → ℕ → ℕ → Mat n n) (samples : List ℕ)
    (K : Mat n n) (ij : ℕ × ℕ) : Option (Mat n n) :=
  let li := samples.getD ij.1 0
  let lj := samples.getD ij.2 0
  let Kij : Mat n n :=
    fun p q => (if ij.1 = ij.2 then beta else 1) * cross (wknn ij.1) li lj p q
  set_submatrix K (fun p => lab p = ij.1) (fun q => lab q = ij.2)
    (countLab lab li) (countLab lab lj) Kij

/-- The assembly phase of `MNNGraph.build_kernel` (graphs.py lines
984-1004): starting from a zero matrix, for every ordered pair of batch
enumeration indices write the cross-kernel block. -/
def MNN_assemble {n : ℕ} (lab : Fin n → ℕ) (beta : ℚ) (wknn : ℕ → ℕ)
    (cross : ℕ → ℕ → ℕ → Mat n n) : Option (Mat n n) :=
  (allPairs (uniqueSorted lab).length).foldlM
    (MNN_assemble_step lab beta wknn cross (uniqueSorted lab))
    (fun _ _ => 0)

/-- One iteration of the matrix-gamma symmetrization loop (graphs.py lines
1012-1024): read the `(i, j)` and `(j, i)` blocks of the current `K`, blend
them with `gamma[i, j]`, write the blend at `(i, j)` and its transpose at
`(j, i)` (the latter only when `i != j`).  `elementwise_minimum` /
`elementwise_maximum` from `graphtools.utils` (not under src/) are modelled
from the spec as entrywise `min` / `max`. -/
def MNN_symm_step {n : ℕ} (g : ℕ → ℕ → ℚ) (lab : Fin n → ℕ)
    (K : Mat n n) (ij : ℕ × ℕ) : Option (Mat n n) :=
  let S : Mat n n := fun p q =>
    g ij.1 ij.2 * min (K p q) (K q p) + (1 - g ij.1 ij.2) * max (K p q) (K q p)
  do
    let K' ← set_submatrix K (fun p => lab p = ij.1) (fun q => lab q = ij.2)
      (countLab lab ij.1) (countLab lab ij.2) S
    if ij.1 = ij.2 then
      pure K'
    else
      set_submatrix K' (fun q => lab q = ij.2) (fun p => lab p = ij.1)
        (countLab lab ij.2) (countLab lab ij.1) (fun q p => S p q)

/-- The symmetrization phase of `MNNGraph.build_kernel` (graphs.py lines
1006-1037), switching on the type of `gamma`: the block loop for matrix
gamma, `(K + K.T) / 2` for `'+'`, `K.multiply(K.T)` for `'*'`, and
`gamma * elementwise_minimum(K, K.T) + (1 - gamma) * elementwise_maximum(K, K.T)`
for scalar gamma. -/
def MNN_symmetrize {n : ℕ} (γ : Gamma) (lab : Fin n → ℕ) (B : ℕ)
    (K : Mat n n) : Option (Mat n n) :=
  match γ with
  | .matrix g => (upperPairs B).foldlM (MNN_symm_step g lab) K
  | .plus => some (fun p q => (K p q + K q p) / 2)
  | .times => some (fun p q => K p q * K q p)
  | .scalar g =>
    some (fun p q => g * min (K p q) (K q p) + (1 - g) * max (K p q) (K q p))

/-- The body of `MNNGraph.build_kernel` (graphs.py lines 953-1038):
assemble the per-batch-pair blocks, then symmetrize according to `gamma`.
`lab` embeds `self.sample_idx`, `wknn` the adaptive `self.weighted_knn`
(indexed by enumeration position), `cross` the subgraph cross-kernels. -/
def MNNGraph_build_kernel {n : ℕ} (lab : Fin n → ℕ) (beta : ℚ) (γ : Gamma)
    (wknn : ℕ → ℕ) (cross : ℕ → ℕ → ℕ → Mat n n) : Option (Mat n n) :=
  (MNN_assemble lab beta wknn cross).bind
    (MNN_symmetrize γ lab (uniqueSorted lab).length)

/-- The realized landmark ids `landmarks = np.unique(self._clusters)`
(graphs.py line 459): the sorted distinct cluster assignments produced by
`MiniBatchKMeans(self.n_landmark, ...)` (labels range over `Fin L` with
`L = n_landmark`). -/
def landmarksList {n L : ℕ} (clusters : Fin n → Fin L) : List (Fin L) :=
  (((List.finRange n).map clusters).dedup).insertionSort (· ≤ ·)

/-- The number `m` of realized landmarks (rows of `pmn`). -/
def numLandmarks {n L : ℕ} (clusters : Fin n → Fin L) : ℕ :=
  (landmarksList clusters).length

/-- Row `a` of the unnormalized landmark-to-sample matrix `pmn`
(graphs.py lines 463-469): the sum of the kernel rows of the samples
assigned to the `a`-th realized landmark,
`np.sum(self.kernel[self._clusters == i, :], axis=0) for i in landmarks`. -/
def pmn_raw {n L : ℕ} (K : Mat n n) (clusters : Fin n → Fin L)
    (a : Fin (numLandmarks clusters)) (s : Fin n) : ℚ :=
  ∑ t ∈ Finset.univ.filter (fun t => clusters t = (landmarksList clusters).get a),
    K t s

/-- L1 row normalization `normalize(..., norm='l1', axis=1)`
(sklearn.preprocessing, an external collaborator; graphs.py lines 472-473):
each row is divided by the sum of the absolute values of its entries; a
zero row is left unchanged. -/
def l1normalizeRow {k : ℕ} (v : Fin k → ℚ) : Fin k → ℚ :=
  let s := ∑ j, |v j|
  if s = 0 then v else fun j => v j / s

/-- The normalized transition matrix `pmn` (landmarks to samples),
graphs.py line 472. -/
def pmn_norm {n L : ℕ} (K : Mat n n) (clusters : Fin n → Fin L)
    (a : Fin (numLandmarks clusters)) : Fin n → ℚ :=
  l1normalizeRow (pmn_raw K clusters a)

/-- The normalized transition matrix `pnm` (samples to landmarks):
`pnm = pmn.transpose()` is taken before either matrix is normalized
(graphs.py lines 471, 473), so row `s` of `pnm` is the `s`-th column of the
unnormalized `pmn`, L1-normalized. -/
def pnm_norm {n L : ℕ} (K : Mat n n) (clusters : Fin n → Fin L)
    (s : Fin n) : Fin (numLandmarks clusters) → ℚ :=
  l1normalizeRow (fun a => pmn_raw K clusters a s)

/-- The landmark operator `diff_op = pmn.dot(pnm)` (graphs.py line 474),
an `m x m` matrix by construction. -/
def landmark_op {n L : ℕ} (K : Mat n n) (clusters : Fin n → Fin L)
    (a b : Fin (numLandmarks clusters)) : ℚ :=
  ∑ s, pmn_norm K clusters a s * pnm_norm K clusters s b

/-! ### Basic helper lemmas -/

theorem sym_avg_symm {n : ℕ} (K : Mat n n) (i j : Fin n) :
    sym_avg K i j = sym_avg K j i := by
  simp [sym_avg, add_comm]

theorem threshold_below_symm {n : ℕ} (t : ℚ) (K : Mat n n)
    (h : ∀ i j, K i j = K j i) (i j : Fin n) :
    threshold_below t K i j = threshold_below t K j i := by
  simp [threshold_below, h i j]

theorem threshold_below_lt {m n : ℕ} (t : ℚ) (K : Mat m n) (i : Fin m) (j : Fin n)
    (h : threshold_below t K i j < t) : threshold_below t K i j = 0 := by
  by_cases hk : K i j < t
  · simp [threshold_below, hk]
  · simp only [threshold_below, if_neg hk] at h ⊢
    exact absurd h hk

/-- C10: constructing a `kNNGraph` raises a `ValueError` exactly when
`decay` is not `None` and `thresh <= 0`; with `decay=None` every `thresh`
is accepted at construction. -/
theorem kNN_init_validation :
    (∀ (decay : Option ℚ) (thresh : ℚ),
      kNNGraph_init_raises decay thresh = true ↔ decay ≠ none ∧ thresh ≤ 0)
    ∧ ∀ thresh : ℚ, kNNGraph_init_raises none thresh = false := by
  constructor
  · intro decay thresh
    cases decay <;> simp [kNNGraph_init_raises]
  · intro thresh
    simp [kNNGraph_init_raises]

/-- C3: in binary mode (`decay is None or thresh == 1`) every entry of
`kNNGraph.build_kernel()` lies in `{0, 1/2, 1}`; an entry `(i, j)` is `1`
exactly when `i` and `j` are mutual k-nearest neighbours under the search
relation `nbr` (which includes self, `include_self=True`), `1/2` exactly
when one-directional, and `0` exactly when neither direction holds. -/
theorem kNN_binary_kernel_classification {n : ℕ} (decay : Option ℚ)
    (thresh : ℚ) (f : ℚ → ℚ) (nbr : Fin n → Fin n → Bool)
    (dist : Fin n → Fin n → ℚ) (band : Fin n → ℚ)
    (found : Fin n → Fin n → Bool)
    (hbin : decay = none ∨ thresh = 1) (i j : Fin n) :
    (kNNGraph_build_kernel decay thresh f nbr dist band found i j = 0 ∨
     kNNGraph_build_kernel decay thresh f nbr dist band found i j = 1 / 2 ∨
     kNNGraph_build_kernel decay thresh f nbr dist band found i j = 1)
    ∧ (kNNGraph_build_kernel decay thresh f nbr dist band found i j = 1 ↔
        nbr i j = true ∧ nbr j i = true)
    ∧ (kNNGraph_build_kernel decay thresh f nbr dist band found i j = 1 / 2 ↔
        ((nbr i j = true ∧ nbr j i = false) ∨ (nbr i j = false ∧ nbr j i = true)))
    ∧ (kNNGraph_build_kernel decay thresh f nbr dist band found i j = 0 ↔
        nbr i j = false ∧ nbr j i = false) := by
  unfold kNNGraph_build_kernel
  rw [if_pos hbin]
  cases hij : nbr i j <;> cases hji : nbr j i <;>
    simp [sym_avg, connectivity, hij, hji]

/-- Witness for `kNN_binary_kernel_classification`: a concrete
one-directional neighbour pair receives weight `1/2`. -/
theorem kNN_binary_kernel_classification_witness :
    kNNGraph_build_kernel (n := 2) none 1 (fun _ => 0) ![![true, true], ![false, true]]
      (fun _ _ => 0) (fun _ => 1) (fun _ _ => false) 0 1 = 1 / 2 :=
  (kNN_binary_kernel_classification none 1 (fun _ => 0)
    ![![true, true], ![false, true]] (fun _ _ => 0) (fun _ => 1) (fun _ _ => false)
    (Or.inl rfl) 0 1).2.2.1.mpr (Or.inl ⟨rfl, rfl⟩)

/-- Counterexample to C9 as stated: giving `precomputed` together with
`n_pca` on an otherwise valid configuration does NOT raise — the
constructor emits a `RuntimeWarning` and discards `n_pca`
(graphs.py lines 597-601). -/
theorem trad_init_precomputed_pca_counterexample :
    TraditionalGraph_init (r := 1) (c := 1) ![![(0 : ℚ)]] (some 10) (some 5)
      (some "affinity") = .ok none true := by
  decide

/-- C9 (amended): `TraditionalGraph.__init__` raises a `ValueError` when
`decay` is `None` and the data is not tagged affinity or adjacency, when
the `precomputed` tag is unrecognized, and when a precomputed matrix is
non-square or has a negative entry; but a `precomputed` tag combined with
`n_pca` only emits a `RuntimeWarning` and sets `n_pca` to `None`. -/
theorem trad_init_validation_amended :
    (∀ (r c : ℕ) (data : Fin r → Fin c → ℚ) (decay : Option ℚ) (np : ℕ) (p : String),
      (decay ≠ none ∨ p = "affinity" ∨ p = "adjacency") →
      (p = "distance" ∨ p = "affinity" ∨ p = "adjacency") →
      r = c → (∀ i j, 0 ≤ data i j) →
      TraditionalGraph_init data decay (some np) (some p) = .ok none true)
    ∧ (∀ (r c : ℕ) (data : Fin r → Fin c → ℚ) (n_pca : Option ℕ)
        (precomputed : Option String),
      precomputed ≠ some "affinity" → precomputed ≠ some "adjacency" →
      TraditionalGraph_init data none n_pca precomputed = .error)
    ∧ (∀ (r c : ℕ) (data : Fin r → Fin c → ℚ) (decay : Option ℚ)
        (n_pca : Option ℕ) (p : String),
      p ≠ "distance" → p ≠ "affinity" → p ≠ "adjacency" →
      TraditionalGraph_init data decay n_pca (some p) = .error)
    ∧ (∀ (r c : ℕ) (data : Fin r → Fin c → ℚ) (decay : Option ℚ)
        (n_pca : Option ℕ) (p : String),
      (decay ≠ none ∨ p = "affinity" ∨ p = "adjacency") →
      (p = "distance" ∨ p = "affinity" ∨ p = "adjacency") →
      r ≠ c →
      TraditionalGraph_init data decay n_pca (some p) = .error)
    ∧ (∀ (r c : ℕ) (data : Fin r → Fin c → ℚ) (decay : Option ℚ)
        (n_pca : Option ℕ) (p : String),
      (decay ≠ none ∨ p = "affinity" ∨ p = "adjacency") →
      (p = "distance" ∨ p = "affinity" ∨ p = "adjacency") →
      (∃ i j, data i j < 0) →
      TraditionalGraph_init data decay n_pca (some p) = .error) := by
  refine ⟨?_, ?_, ?_, ?_, ?_⟩
  · intro r c data decay np p h1 h2 hrc hpos
    have hdec : ¬(decay = none ∧ some p ≠ some "affinity" ∧ some p ≠ some "adjacency") := by
      rcases h1 with h | h | h <;> simp [h]
    have hrec : ¬(p ≠ "distance" ∧ p ≠ "affinity" ∧ p ≠ "adjacency") := by
      rcases h2 with h | h | h <;> simp [h]
    have hneg : ¬∃ i j, data i j < 0 := by
      push_neg
      intro i j
      exact hpos i j
    simp only [TraditionalGraph_init, if_neg hdec]
    simp [hrec, hrc, hneg]
  · intro r c data n_pca precomputed h1 h2
    simp [TraditionalGraph_init, h1, h2]
  · intro r c data decay n_pca p h1 h2 h3
    simp only [TraditionalGraph_init]
    by_cases hdec : decay = none ∧ some p ≠ some "affinity" ∧ some p ≠ some "adjacency"
    · rw [if_pos hdec]
    · rw [if_neg hdec]
      simp [h1, h2, h3]
  · intro r c data decay n_pca p h1 h2 hrc
    have hdec : ¬(decay = none ∧ some p ≠ some "affinity" ∧ some p ≠ some "adjacency") := by
      rcases h1 with h | h | h <;> simp [h]
    have hrec : ¬(p ≠ "distance" ∧ p ≠ "affinity" ∧ p ≠ "adjacency") := by
      rcases h2 with h | h | h <;> simp [h]
    simp only [TraditionalGraph_init, if_neg hdec]
    simp [hrec, hrc]
  · intro r c data decay n_pca p h1 h2 hneg
    have hdec : ¬(decay = none ∧ some p ≠ some "affinity" ∧ some p ≠ some "adjacency") := by
      rcases h1 with h | h | h <;> simp [h]
    have hrec : ¬(p ≠ "distance" ∧ p ≠ "affinity" ∧ p ≠ "adjacency") := by
      rcases h2 with h | h | h <;> simp [h]
    simp only [TraditionalGraph_init, if_neg hdec]
    by_cases hrc : r = c
    · simp [hrec, hrc, hneg]
    · simp [hrec, hrc]

/-- Witness for `trad_init_validation_amended`: a concrete missing-decay
configuration is rejected. -/
theorem trad_init_validation_amended_witness :
    TraditionalGraph_init (r := 1) (c := 1) ![![(0 : ℚ)]] none none
      (some "distance") = .error :=
  trad_init_validation_amended.2.1 1 1 ![![(0 : ℚ)]] none (some "distance")
    (by decide) (by decide)

/-- Counterexample to C8 as stated: on a graph with `decay == 0`, passing a
changed `thresh` to `set_params` does NOT raise — the guard at graphs.py
lines 117-119 requires `self.decay != 0` (the change is silently ignored:
`thresh` is never assigned). -/
theorem set_params_thresh_decay_zero_counterexample :
    ((2 : ℚ) ≠ (1 : ℚ))
    ∧ (kNNGraph_set_params (κ := ℕ)
        { knn := 5, decay := some 0, distance := "euclidean", thresh := 1,
          n_jobs := 1, random_state := 42, verbose := 0, kernel := 7 }
        { thresh := some 2 }).1 = none
    ∧ (kNNGraph_set_params (κ := ℕ)
        { knn := 5, decay := some 0, distance := "euclidean", thresh := 1,
          n_jobs := 1, random_state := 42, verbose := 0, kernel := 7 }
        { thresh := some 2 }).2.thresh = 1 := by
  refine ⟨by norm_num, ?_, ?_⟩ <;> decide

/-- C8 (amended): `kNNGraph.set_params` raises a `ValueError` for a changed
`knn`, `decay` or `distance`, and for a changed `thresh` only when
`decay != 0`; on error the state (parameters and cached kernel) is
unchanged.  When `decay == 0`, a changed `thresh` is accepted silently and
ignored: no error, and neither `thresh` nor the cached kernel changes. -/
theorem set_params_immutable_amended :
    ∀ (κ : Type) (s : KNNState κ) (p : KNNSetParams),
    (((p.knn ≠ none ∧ p.knn ≠ some s.knn) ∨
      (p.decay ≠ none ∧ p.decay ≠ some s.decay) ∨
      (p.distance ≠ none ∧ p.distance ≠ some s.distance) ∨
      (p.thresh ≠ none ∧ p.thresh ≠ some s.thresh ∧ s.decay ≠ some 0)) →
      (kNNGraph_set_params s p).1 ≠ none ∧ (kNNGraph_set_params s p).2 = s)
    ∧ (s.decay = some 0 →
      (p.knn = none ∨ p.knn = some s.knn) →
      (p.decay = none ∨ p.decay = some s.decay) →
      (p.distance = none ∨ p.distance = some s.distance) →
      (kNNGraph_set_params s p).1 = none
      ∧ (kNNGraph_set_params s p).2.thresh = s.thresh
      ∧ (kNNGraph_set_params s p).2.kernel = s.kernel
      ∧ (kNNGraph_set_params s p).2.knn = s.knn
      ∧ (kNNGraph_set_params s p).2.decay = s.decay
      ∧ (kNNGraph_set_params s p).2.distance = s.distance) := by
  intro κ s p
  constructor
  · intro hchanged
    unfold kNNGraph_set_params
    split_ifs with h1 h2 h3 h4
    · exact ⟨by simp, rfl⟩
    · exact ⟨by simp, rfl⟩
    · exact ⟨by simp, rfl⟩
    · exact ⟨by simp, rfl⟩
    · rcases hchanged with h | h | h | h
      · exact absurd h h1
      · exact absurd h h2
      · exact absurd h h3
      · exact absurd h h4
  · intro hdec hknn hd hdist
    have h1 : ¬(p.knn ≠ none ∧ p.knn ≠ some s.knn) := by
      rcases hknn with h | h <;> simp [h]
    have h2 : ¬(p.decay ≠ none ∧ p.decay ≠ some s.decay) := by
      rcases hd with h | h <;> simp [h]
    have h3 : ¬(p.distance ≠ none ∧ p.distance ≠ some s.distance) := by
      rcases hdist with h | h <;> simp [h]
    have h4 : ¬(p.thresh ≠ none ∧ p.thresh ≠ some s.thresh ∧ s.decay ≠ some 0) := by
      simp [hdec]
    unfold kNNGraph_set_params
    rw [if_neg h1, if_neg h2, if_neg h3, if_neg h4]
    exact ⟨rfl, rfl, rfl, rfl, rfl, rfl⟩

/-- Witness for `set_params_immutable_amended`: a changed `knn` on a
concrete graph state is rejected with the state unchanged. -/
theorem set_params_immutable_amended_witness :
    (kNNGraph_set_params (κ := ℕ)
      { knn := 5, decay := some 10, distance := "euclidean", thresh := 1 / 1000,
        n_jobs := 1, random_state := 42, verbose := 0, kernel := 3 }
      { knn := some 6 }).1 ≠ none
    ∧ (kNNGraph_set_params (κ := ℕ)
      { knn := 5, decay := some 10, distance := "euclidean", thresh := 1 / 1000,
        n_jobs := 1, random_state := 42, verbose := 0, kernel := 3 }
      { knn := some 6 }).2 =
      { knn := 5, decay := some 10, distance := "euclidean", thresh := 1 / 1000,
        n_jobs := 1, random_state := 42, verbose := 0, kernel := 3 } :=
  (set_params_immutable_amended ℕ _ _).1 (Or.inl ⟨by simp, by simp⟩)

theorem trad_epsilon_nonneg {n : ℕ} (pdx : Mat n n) (knn : ℕ) (i : Fin n)
    (h : ∀ j, 0 ≤ pdx i j) : 0 ≤ trad_epsilon pdx knn i := by
  unfold trad_epsilon
  set l := ((List.finRange n).map (pdx i)).insertionSort (· ≤ ·) with hl
  by_cases hlen : knn - 1 < l.length
  · rw [List.getD_eq_getElem l 0 hlen]
    have hmem : l[knn - 1] ∈ l := List.getElem_mem hlen
    have hmem' : l[knn - 1] ∈ (List.finRange n).map (pdx i) :=
      (List.perm_insertionSort (· ≤ ·) _).mem_iff.mp hmem
    rcases List.mem_map.mp hmem' with ⟨j, _, hj⟩
    rw [← hj]
    exact h j
  · rw [List.getD_eq_default l 0 (not_lt.mp hlen)]

/-- Counterexample to C4 as stated: `kNNGraph.build_kernel` zeroes
sub-threshold affinities BEFORE the `(K + K.T) / 2` symmetrization
(graphs.py lines 282, 189), so a one-directional above-threshold affinity
averaged with a zeroed reverse affinity yields a final entry in
`(0, thresh)`.  Three collinear points at positions 0, 1, 2 with `knn = 3`
(bandwidths 2, 1, 2), `thresh = 1/2`, and the decay profile
`x ↦ 1/(1 + 2x)` (positive, equal to 1 at 0, at most 1 and decreasing on
nonnegative inputs, like `exp(-x^decay)`) give the final entry
`K 0 1 = 1/4`, which is strictly below `thresh` yet nonzero. -/
theorem decay_threshold_counterexample :
    kNNGraph_build_kernel (n := 3) (some 1) (1 / 2) (fun x => 1 / (1 + 2 * x))
      (fun _ _ => false) ![![0, 1, 2], ![1, 0, 1], ![2, 1, 0]] ![2, 1, 2]
      (fun _ _ => true) 0 1 = 1 / 4
    ∧ ((1 : ℚ) / 4 < 1 / 2) ∧ ((1 : ℚ) / 4 ≠ 0) := by
  refine ⟨?_, by norm_num, by norm_num⟩
  have hcond : ¬((some (1 : ℚ) = none) ∨ ((1 : ℚ) / 2 = 1)) := by
    simp only [not_or]
    exact ⟨Option.some_ne_none 1, by norm_num⟩
  simp only [kNNGraph_build_kernel, if_neg hcond, build_kernel_to_data, sym_avg]
  norm_num [Matrix.cons_val_zero, Matrix.cons_val_one, Matrix.head_cons]

theorem build_kernel_to_data_range {m n : ℕ} (f : ℚ → ℚ) (thresh : ℚ)
    (dist : Fin m → Fin n → ℚ) (band : Fin m → ℚ)
    (found : Fin m → Fin n → Bool)
    (hf : ∀ x, 0 ≤ x → 0 ≤ f x ∧ f x ≤ 1)
    (hd : ∀ y x, 0 ≤ dist y x) (hb : ∀ y, 0 ≤ band y) (y : Fin m) (x : Fin n) :
    (0 ≤ build_kernel_to_data f thresh dist band found y x
      ∧ build_kernel_to_data f thresh dist band found y x ≤ 1)
    ∧ (build_kernel_to_data f thresh dist band found y x = 0
      ∨ thresh ≤ build_kernel_to_data f thresh dist band found y x) := by
  have hval := hf (dist y x / band y) (div_nonneg (hd y x) (hb y))
  unfold build_kernel_to_data
  by_cases hfd : found y x
  · simp only [hfd, if_true]
    by_cases hth : f (dist y x / band y) < thresh
    · simp [hth]
    · simp only [hth, if_false]
      exact ⟨hval, Or.inr (not_lt.mp hth)⟩
  · simp only [hfd]
    norm_num

/-- C4 (amended): alpha-decay kernel entries always lie in `[0, 1]`
(given the range of `x ↦ exp(-x^decay)` on nonnegative inputs), and
entries of `build_kernel_to_data` strictly below `thresh` are exactly 0;
for `TraditionalGraph.build_kernel` (decay paths `precomputed=None` /
`'distance'`), which thresholds after symmetrizing, final entries strictly
below `thresh` are exactly 0; but for `kNNGraph.build_kernel`, which
thresholds before symmetrizing, only entries strictly below `thresh / 2`
are guaranteed to be 0. -/
theorem decay_kernel_range_amended :
    (∀ (m n : ℕ) (f : ℚ → ℚ) (thresh : ℚ) (dist : Fin m → Fin n → ℚ)
        (band : Fin m → ℚ) (found : Fin m → Fin n → Bool),
      (∀ x, 0 ≤ x → 0 ≤ f x ∧ f x ≤ 1) →
      (∀ y x, 0 ≤ dist y x) → (∀ y, 0 ≤ band y) →
      ∀ (y : Fin m) (x : Fin n),
        (0 ≤ build_kernel_to_data f thresh dist band found y x
          ∧ build_kernel_to_data f thresh dist band found y x ≤ 1)
        ∧ (build_kernel_to_data f thresh dist band found y x < thresh →
            build_kernel_to_data f thresh dist band found y x = 0))
    ∧ (∀ (n : ℕ) (decay : Option ℚ) (thresh : ℚ) (f : ℚ → ℚ)
        (nbr : Fin n → Fin n → Bool) (dist : Fin n → Fin n → ℚ)
        (band : Fin n → ℚ) (found : Fin n → Fin n → Bool),
      decay ≠ none → thresh ≠ 1 →
      (∀ x, 0 ≤ x → 0 ≤ f x ∧ f x ≤ 1) →
      (∀ y x, 0 ≤ dist y x) → (∀ y, 0 ≤ band y) →
      ∀ i j : Fin n,
        (0 ≤ kNNGraph_build_kernel decay thresh f nbr dist band found i j
          ∧ kNNGraph_build_kernel decay thresh f nbr dist band found i j ≤ 1)
        ∧ (kNNGraph_build_kernel decay thresh f nbr dist band found i j < thresh / 2 →
            kNNGraph_build_kernel decay thresh f nbr dist band found i j = 0))
    ∧ (∀ (n : ℕ) (f : ℚ → ℚ) (thresh : ℚ) (knn : ℕ)
        (precomputed : Option String) (data pdist_data : Mat n n),
      (precomputed = none ∨ precomputed = some "distance") →
      (∀ x, 0 ≤ x → 0 ≤ f x ∧ f x ≤ 1) →
      (∀ i j, 0 ≤ data i j) → (∀ i j, 0 ≤ pdist_data i j) →
      ∀ i j : Fin n,
        (0 ≤ TraditionalGraph_build_kernel f thresh knn precomputed data pdist_data i j
          ∧ TraditionalGraph_build_kernel f thresh knn precomputed data pdist_data i j ≤ 1)
        ∧ (TraditionalGraph_build_kernel f thresh knn precomputed data pdist_data i j < thresh →
            TraditionalGraph_build_kernel f thresh knn precomputed data pdist_data i j = 0)) := by
  refine ⟨?_, ?_, ?_⟩
  · intro m n f thresh dist band found hf hd hb y x
    obtain ⟨hrange, hzt⟩ := build_kernel_to_data_range f thresh dist band found hf hd hb y x
    refine ⟨hrange, fun hlt => ?_⟩
    rcases hzt with h | h
    · exact h
    · exact absurd hlt (not_lt.mpr h)
  · intro n decay thresh f nbr dist band found hdec hth hf hd hb i j
    have hcond : ¬(decay = none ∨ thresh = 1) := by
      simp only [not_or]
      exact ⟨hdec, hth⟩
    have hij := build_kernel_to_data_range f thresh dist band found hf hd hb i j
    have hji := build_kernel_to_data_range f thresh dist band found hf hd hb j i
    simp only [kNNGraph_build_kernel, if_neg hcond, sym_avg]
    constructor
    · constructor
      · have := hij.1.1
        have := hji.1.1
        linarith
      · have := hij.1.2
        have := hji.1.2
        linarith
    · intro hlt
      have h1 : build_kernel_to_data f thresh dist band found i j = 0 := by
        rcases hij.2 with h | h
        · exact h
        · exfalso
          have := hji.1.1
          linarith
      have h2 : build_kernel_to_data f thresh dist band found j i = 0 := by
        rcases hji.2 with h | h
        · exact h
        · exfalso
          have := hij.1.1
          linarith
      rw [h1, h2]
      norm_num
  · intro n f thresh knn precomputed data pdist_data hpre hf hdata hpd i j
    have key : ∀ pdx : Mat n n, (∀ a b, 0 ≤ pdx a b) →
        (0 ≤ threshold_below thresh
            (sym_avg (fun a b => f (pdx a b / trad_epsilon pdx knn a))) i j
          ∧ threshold_below thresh
            (sym_avg (fun a b => f (pdx a b / trad_epsilon pdx knn a))) i j ≤ 1)
        ∧ (threshold_below thresh
            (sym_avg (fun a b => f (pdx a b / trad_epsilon pdx knn a))) i j < thresh →
          threshold_below thresh
            (sym_avg (fun a b => f (pdx a b / trad_epsilon pdx knn a))) i j = 0) := by
      intro pdx hpdx
      have heps : ∀ a : Fin n, 0 ≤ trad_epsilon pdx knn a := fun a =>
        trad_epsilon_nonneg pdx knn a (hpdx a)
      have hvij := hf (pdx i j / trad_epsilon pdx knn i)
        (div_nonneg (hpdx i j) (heps i))
      have hvji := hf (pdx j i / trad_epsilon pdx knn j)
        (div_nonneg (hpdx j i) (heps j))
      have hsym : 0 ≤ sym_avg (fun a b => f (pdx a b / trad_epsilon pdx knn a)) i j
          ∧ sym_avg (fun a b => f (pdx a b / trad_epsilon pdx knn a)) i j ≤ 1 := by
        simp only [sym_avg]
        constructor
        · linarith [hvij.1, hvji.1]
        · linarith [hvij.2, hvji.2]
      constructor
      · unfold threshold_below
        by_cases hth : sym_avg (fun a b => f (pdx a b / trad_epsilon pdx knn a)) i j < thresh
        · simp only [hth, if_true]
          constructor
          · exact le_refl 0
          · linarith [hsym.1, hsym.2]
        · simp only [hth, if_false]
          exact hsym
      · exact threshold_below_lt thresh _ i j
    rcases hpre with h | h <;> subst h
    · simpa only [TraditionalGraph_build_kernel, reduceCtorEq, if_false] using
        key pdist_data hpd
    · have h1 : (some "distance" : Option String) = some "affinity" ↔ False := by simp
      have h2 : (some "distance" : Option String) = some "adjacency" ↔ False := by simp
      have h3 : (some "distance" : Option String) = some "distance" ↔ True := by simp
      simpa only [TraditionalGraph_build_kernel, h1, h2, h3, if_false, if_true] using
        key data hdata

/-- Witness for `decay_kernel_range_amended`: a concrete single-point
kernel has its entry in `[0, 1]`. -/
theorem decay_kernel_range_amended_witness :
    0 ≤ build_kernel_to_data (fun _ => (1 : ℚ)) (1 / 2) (fun _ _ => 0)
      (fun _ => 1) (fun _ _ => true) (0 : Fin 1) (0 : Fin 1)
    ∧ build_kernel_to_data (fun _ => (1 : ℚ)) (1 / 2) (fun _ _ => 0)
      (fun _ => 1) (fun _ _ => true) (0 : Fin 1) (0 : Fin 1) ≤ 1 :=
  (decay_kernel_range_amended.1 1 1 (fun _ => (1 : ℚ)) (1 / 2) (fun _ _ => 0)
    (fun _ => 1) (fun _ _ => true)
    (fun _ _ => ⟨zero_le_one, le_refl 1⟩)
    (fun _ _ => le_refl 0) (fun _ => zero_le_one) 0 0).1

/-! ### MNN helper lemmas: pair lists, unique labels, submatrix writes -/

theorem mem_allPairs {B : ℕ} (ij : ℕ × ℕ) :
    ij ∈ allPairs B ↔ ij.1 < B ∧ ij.2 < B := by
  obtain ⟨i, j⟩ := ij
  simp [allPairs, List.mem_product]

theorem mem_upperPairs {B : ℕ} (ij : ℕ × ℕ) :
    ij ∈ upperPairs B ↔ ij.1 < B ∧ ij.2 < B ∧ ij.1 ≤ ij.2 := by
  simp only [upperPairs, List.mem_filter, mem_allPairs, decide_eq_true_eq]
  tauto

theorem nodup_upperPairs (B : ℕ) : (upperPairs B).Nodup :=
  ((List.nodup_range B).product (List.nodup_range B)).filter _

theorem mem_uniqueSorted {n : ℕ} (lab : Fin n → ℕ) (l : ℕ) :
    l ∈ uniqueSorted lab ↔ ∃ p, lab p = l := by
  unfold uniqueSorted
  rw [(List.perm_insertionSort (· ≤ ·) _).mem_iff, List.mem_dedup]
  simp

theorem nodup_uniqueSorted {n : ℕ} (lab : Fin n → ℕ) :
    (uniqueSorted lab).Nodup :=
  (List.perm_insertionSort (· ≤ ·) _).nodup_iff.mpr (List.nodup_dedup _)

theorem sorted_uniqueSorted {n : ℕ} (lab : Fin n → ℕ) :
    (uniqueSorted lab).Sorted (· ≤ ·) :=
  List.sorted_insertionSort (· ≤ ·) _

theorem uniqueSorted_eq_range {n : ℕ} (lab : Fin n → ℕ)
    (h : ∀ i < (uniqueSorted lab).length, i ∈ uniqueSorted lab) :
    uniqueSorted lab = List.range (uniqueSorted lab).length := by
  set B := (uniqueSorted lab).length with hB
  have hsub : (List.range B).toFinset ⊆ (uniqueSorted lab).toFinset := by
    intro x hx
    rw [List.mem_toFinset] at hx ⊢
    exact h x (List.mem_range.mp hx)
  have hcard : (uniqueSorted lab).toFinset.card = B :=
    List.toFinset_card_of_nodup (nodup_uniqueSorted lab)
  have hcard' : (List.range B).toFinset.card = B := by
    rw [List.toFinset_card_of_nodup (List.nodup_range B), List.length_range]
  have hfin : (List.range B).toFinset = (uniqueSorted lab).toFinset :=
    Finset.eq_of_subset_of_card_le hsub (by rw [hcard, hcard'])
  exact List.eq_of_perm_of_sorted
    (List.perm_of_nodup_nodup_toFinset_eq (nodup_uniqueSorted lab)
      (List.nodup_range B) hfin.symm)
    (sorted_uniqueSorted lab) (List.sorted_le_range B)

theorem lab_lt_of_canonical {n : ℕ} (lab : Fin n → ℕ)
    (hcan : uniqueSorted lab = List.range (uniqueSorted lab).length)
    (p : Fin n) : lab p < (uniqueSorted lab).length := by
  have hmem : lab p ∈ uniqueSorted lab := (mem_uniqueSorted lab _).mpr ⟨p, rfl⟩
  rw [hcan] at hmem
  exact List.mem_range.mp hmem

theorem getD_range {B i : ℕ} (h : i < B) : (List.range B).getD i 0 = i := by
  rw [List.getD_eq_getElem (List.range B) 0 (by simpa using h)]
  simp

theorem set_submatrix_of_checks {n : ℕ} (K : Mat n n) (rmask cmask : Fin n → Prop)
    [DecidablePred rmask] [DecidablePred cmask] (nr nc : ℕ) (S : Mat n n)
    (h1 : (Finset.univ.filter rmask).card = nr)
    (h2 : (Finset.univ.filter cmask).card = nc) :
    set_submatrix K rmask cmask nr nc S =
      some (fun p q => if rmask p ∧ cmask q then S p q else K p q) := by
  simp [set_submatrix, h1, h2]

theorem checks_of_set_submatrix_some {n : ℕ} (K : Mat n n)
    (rmask cmask : Fin n → Prop) [DecidablePred rmask] [DecidablePred cmask]
    (nr nc : ℕ) (S : Mat n n) (K' : Mat n n)
    (h : set_submatrix K rmask cmask nr nc S = some K') :
    (Finset.univ.filter rmask).card = nr ∧ (Finset.univ.filter cmask).card = nc := by
  by_contra hc
  rw [set_submatrix, if_neg hc] at h
  exact Option.noConfusion h

theorem assemble_checks_of_foldlM_some {n : ℕ} (lab : Fin n → ℕ) (beta : ℚ)
    (wknn : ℕ → ℕ) (cross : ℕ → ℕ → ℕ → Mat n n) (samples : List ℕ) :
    ∀ (L : List (ℕ × ℕ)) (K0 R : Mat n n),
    L.foldlM (MNN_assemble_step lab beta wknn cross samples) K0 = some R →
    ∀ ij ∈ L, countLab lab ij.1 = countLab lab (samples.getD ij.1 0)
      ∧ countLab lab ij.2 = countLab lab (samples.getD ij.2 0) := by
  intro L
  induction L with
  | nil => intro K0 R _ ij hij; exact absurd hij (List.not_mem_nil ij)
  | cons a L ih =>
    intro K0 R h ij hij
    rw [List.foldlM_cons] at h
    cases hstep : MNN_assemble_step lab beta wknn cross samples K0 a with
    | none => rw [hstep] at h; exact Option.noConfusion h
    | some K1 =>
      rw [hstep] at h
      simp only [Option.bind_eq_bind, Option.some_bind] at h
      rcases List.mem_cons.mp hij with rfl | hmem
      · unfold MNN_assemble_step at hstep
        exact checks_of_set_submatrix_some _ _ _ _ _ _ _ hstep
      · exact ih K1 R h ij hmem

theorem assemble_foldlM_eval {n : ℕ} (lab : Fin n → ℕ) (beta : ℚ)
    (wknn : ℕ → ℕ) (cross : ℕ → ℕ → ℕ → Mat n n) (samples : List ℕ) :
    ∀ (L : List (ℕ × ℕ)) (K0 : Mat n n),
    (∀ ij ∈ L, countLab lab ij.1 = countLab lab (samples.getD ij.1 0)
      ∧ countLab lab ij.2 = countLab lab (samples.getD ij.2 0)) →
    L.foldlM (MNN_assemble_step lab beta wknn cross samples) K0 = some (fun p q =>
      if (lab p, lab q) ∈ L then
        (if lab p = lab q then beta else 1) *
          cross (wknn (lab p)) (samples.getD (lab p) 0) (samples.getD (lab q) 0) p q
      else K0 p q) := by
  intro L
  induction L with
  | nil =>
    intro K0 _
    rw [List.foldlM_nil]
    congr 1
  | cons a L ih =>
    intro K0 hchk
    rw [List.foldlM_cons]
    have hstep : MNN_assemble_step lab beta wknn cross samples K0 a =
        some (fun p q => if lab p = a.1 ∧ lab q = a.2 then
          (if a.1 = a.2 then beta else 1) *
            cross (wknn a.1) (samples.getD a.1 0) (samples.getD a.2 0) p q
        else K0 p q) := by
      unfold MNN_assemble_step
      exact set_submatrix_of_checks _ _ _ _ _ _
        (hchk a (List.mem_cons_self a L)).1 (hchk a (List.mem_cons_self a L)).2
    rw [hstep]
    simp only [Option.bind_eq_bind, Option.some_bind]
    rw [ih _ (fun ij hij => hchk ij (List.mem_cons_of_mem a hij))]
    congr 1
    funext p q
    by_cases hmem : (lab p, lab q) ∈ L
    · have hmem' : (lab p, lab q) ∈ a :: L := List.mem_cons_of_mem a hmem
      simp only [hmem, hmem', if_true]
    · by_cases heq : (lab p, lab q) = a
      · have h1 : lab p = a.1 := by rw [← heq]
        have h2 : lab q = a.2 := by rw [← heq]
        have hmem' : (lab p, lab q) ∈ a :: L := by
          rw [heq]
          exact List.mem_cons_self a L
        rw [if_neg hmem, if_pos hmem', if_pos (And.intro h1 h2), h1, h2]
      · have hmask : ¬(lab p = a.1 ∧ lab q = a.2) := by
          intro hand
          exact heq (Prod.ext hand.1 hand.2)
        have hmem' : (lab p, lab q) ∉ a :: L := by
          rw [List.mem_cons]
          push_neg
          exact ⟨heq, hmem⟩
        simp only [hmem, if_false, hmem', if_neg hmask]

theorem MNN_assemble_some_canonical {n : ℕ} (lab : Fin n → ℕ) (beta : ℚ)
    (wknn : ℕ → ℕ) (cross : ℕ → ℕ → ℕ → Mat n n) (R : Mat n n)
    (h : MNN_assemble lab beta wknn cross = some R) :
    uniqueSorted lab = List.range (uniqueSorted lab).length := by
  apply uniqueSorted_eq_range
  intro i hi
  have hchk := assemble_checks_of_foldlM_some lab beta wknn cross
    (uniqueSorted lab) _ _ _ h (i, i) ((mem_allPairs (i, i)).mpr ⟨hi, hi⟩)
  have hmem : (uniqueSorted lab).getD i 0 ∈ uniqueSorted lab := by
    rw [List.getD_eq_getElem _ _ hi]
    exact List.getElem_mem hi
  obtain ⟨p, hp⟩ := (mem_uniqueSorted lab _).mp hmem
  have hpos : 0 < countLab lab ((uniqueSorted lab).getD i 0) := by
    apply Finset.card_pos.mpr
    exact ⟨p, Finset.mem_filter.mpr ⟨Finset.mem_univ p, hp⟩⟩
  rw [← hchk.1] at hpos
  obtain ⟨q, hq⟩ := Finset.card_pos.mp hpos
  rw [Finset.mem_filter] at hq
  exact (mem_uniqueSorted lab i).mpr ⟨q, hq.2⟩

theorem MNN_assemble_eval {n : ℕ} (lab : Fin n → ℕ) (beta : ℚ)
    (wknn : ℕ → ℕ) (cross : ℕ → ℕ → ℕ → Mat n n)
    (hcan : uniqueSorted lab = List.range (uniqueSorted lab).length) :
    MNN_assemble lab beta wknn cross = some (fun p q =>
      (if lab p = lab q then beta else 1) *
        cross (wknn (lab p)) (lab p) (lab q) p q) := by
  unfold MNN_assemble
  have hget : ∀ i < (uniqueSorted lab).length, (uniqueSorted lab).getD i 0 = i := by
    intro i hi
    rw [hcan]
    rw [hcan] at hi
    simp only [List.length_range] at hi
    exact getD_range hi
  rw [assemble_foldlM_eval lab beta wknn cross (uniqueSorted lab) _ _ ?_]
  · congr 1
    funext p q
    have hp := lab_lt_of_canonical lab hcan p
    have hq := lab_lt_of_canonical lab hcan q
    have hmem : (lab p, lab q) ∈ allPairs (uniqueSorted lab).length :=
      (mem_allPairs (lab p, lab q)).mpr ⟨hp, hq⟩
    rw [if_pos hmem, hget (lab p) hp, hget (lab q) hq]
  · intro ij hij
    obtain ⟨hi, hj⟩ := (mem_allPairs ij).mp hij
    rw [hget ij.1 hi, hget ij.2 hj]
    exact ⟨rfl, rfl⟩

theorem MNN_symm_step_eq {n : ℕ} (g : ℕ → ℕ → ℚ) (lab : Fin n → ℕ)
    (K : Mat n n) (ij : ℕ × ℕ) :
    MNN_symm_step g lab K ij = some (fun p q =>
      if lab p = ij.2 ∧ lab q = ij.1 ∧ ij.1 ≠ ij.2 then
        g ij.1 ij.2 * min (K q p) (K p q) + (1 - g ij.1 ij.2) * max (K q p) (K p q)
      else if lab p = ij.1 ∧ lab q = ij.2 then
        g ij.1 ij.2 * min (K p q) (K q p) + (1 - g ij.1 ij.2) * max (K p q) (K q p)
      else K p q) := by
  obtain ⟨i, j⟩ := ij
  simp only [MNN_symm_step]
  rw [set_submatrix_of_checks K (fun p => lab p = i) (fun q => lab q = j)
    (countLab lab i) (countLab lab j) _ rfl rfl]
  simp only [Option.bind_eq_bind, Option.some_bind]
  by_cases hij : i = j
  · subst hij
    rw [if_pos rfl]
    show some _ = some _
    congr 1
    funext p q
    beta_reduce
    have hfalse : ¬(lab p = i ∧ lab q = i ∧ i ≠ i) := fun h => h.2.2 rfl
    rw [if_neg hfalse]
  · rw [if_neg hij, set_submatrix_of_checks _ (fun q => lab q = j)
      (fun p => lab p = i) (countLab lab j) (countLab lab i) _ rfl rfl]
    congr 1
    funext p q
    beta_reduce
    by_cases h2m : lab p = j ∧ lab q = i
    · rw [if_pos h2m, if_pos ⟨h2m.1, h2m.2, hij⟩]
    · have hfalse2 : ¬(lab p = j ∧ lab q = i ∧ i ≠ j) := fun h => h2m ⟨h.1, h.2.1⟩
      rw [if_neg h2m, if_neg hfalse2]

theorem symm_foldlM_eval {n : ℕ} (g : ℕ → ℕ → ℚ) (lab : Fin n → ℕ) :
    ∀ (L : List (ℕ × ℕ)), (∀ ij ∈ L, ij.1 ≤ ij.2) → L.Nodup →
    ∀ (K R : Mat n n), L.foldlM (MNN_symm_step g lab) K = some R →
    ∀ p q : Fin n,
    R p q = if (min (lab p) (lab q), max (lab p) (lab q)) ∈ L then
        g (min (lab p) (lab q)) (max (lab p) (lab q)) * min (K p q) (K q p)
          + (1 - g (min (lab p) (lab q)) (max (lab p) (lab q))) * max (K p q) (K q p)
      else K p q := by
  intro L
  induction L with
  | nil =>
    intro _ _ K R h p q
    rw [List.foldlM_nil] at h
    have hK : K = R := Option.some.inj h
    rw [← hK, if_neg (List.not_mem_nil _)]
  | cons a L ih =>
    intro hup hnd K R h p q
    have hija : a.1 ≤ a.2 := hup a (List.mem_cons_self _ _)
    rw [List.foldlM_cons, MNN_symm_step_eq] at h
    simp only [Option.bind_eq_bind, Option.some_bind] at h
    have hR := ih (fun ij hij => hup ij (List.mem_cons_of_mem a hij))
      (List.nodup_cons.mp hnd).2 _ R h p q
    beta_reduce at hR
    by_cases hpair : (min (lab p) (lab q), max (lab p) (lab q)) = a
    · have hnotL : (min (lab p) (lab q), max (lab p) (lab q)) ∉ L := by
        rw [hpair]
        exact (List.nodup_cons.mp hnd).1
      rw [if_neg hnotL] at hR
      rw [if_pos (by rw [hpair]; exact List.mem_cons_self a L)]
      have h1 : min (lab p) (lab q) = a.1 := congrArg Prod.fst hpair
      have h2 : max (lab p) (lab q) = a.2 := congrArg Prod.snd hpair
      by_cases hle : lab p ≤ lab q
      · have hm : min (lab p) (lab q) = lab p := min_eq_left hle
        have hM : max (lab p) (lab q) = lab q := max_eq_right hle
        have ha1 : a.1 = lab p := by rw [← h1, hm]
        have ha2 : a.2 = lab q := by rw [← h2, hM]
        have hc1 : ¬(lab p = a.2 ∧ lab q = a.1 ∧ a.1 ≠ a.2) := by
          rintro ⟨hx, hy, hne⟩
          exact hne (ha1.trans hx)
        rw [if_neg hc1, if_pos ⟨ha1.symm, ha2.symm⟩] at hR
        rw [hR, hm, hM, ha1, ha2]
      · have hlt : lab q ≤ lab p := le_of_not_le hle
        have hm : min (lab p) (lab q) = lab q := min_eq_right hlt
        have hM : max (lab p) (lab q) = lab p := max_eq_left hlt
        have ha1 : a.1 = lab q := by rw [← h1, hm]
        have ha2 : a.2 = lab p := by rw [← h2, hM]
        have hne : a.1 ≠ a.2 := by
          rw [ha1, ha2]
          intro hqq
          exact hle (le_of_eq hqq.symm)
        rw [if_pos ⟨ha2.symm, ha1.symm, hne⟩] at hR
        rw [hR, hm, hM, ha1, ha2, min_comm (K q p) (K p q), max_comm (K q p) (K p q)]
    · have hK1pq : (if lab p = a.2 ∧ lab q = a.1 ∧ a.1 ≠ a.2 then
          g a.1 a.2 * min (K q p) (K p q) + (1 - g a.1 a.2) * max (K q p) (K p q)
        else if lab p = a.1 ∧ lab q = a.2 then
          g a.1 a.2 * min (K p q) (K q p) + (1 - g a.1 a.2) * max (K p q) (K q p)
        else K p q) = K p q := by
        have hc2 : ¬(lab p = a.1 ∧ lab q = a.2) := by
          rintro ⟨hx, hy⟩
          apply hpair
          have hle : lab p ≤ lab q := by rw [hx, hy]; exact hija
          rw [min_eq_left hle, max_eq_right hle]
          exact Prod.ext hx hy
        have hc1 : ¬(lab p = a.2 ∧ lab q = a.1 ∧ a.1 ≠ a.2) := by
          rintro ⟨hx, hy, hne⟩
          apply hpair
          have hlt : lab q ≤ lab p := by rw [hx, hy]; exact hija
          rw [min_eq_right hlt, max_eq_left hlt]
          exact Prod.ext hy hx
        rw [if_neg hc1, if_neg hc2]
      have hK1qp : (if lab q = a.2 ∧ lab p = a.1 ∧ a.1 ≠ a.2 then
          g a.1 a.2 * min (K p q) (K q p) + (1 - g a.1 a.2) * max (K p q) (K q p)
        else if lab q = a.1 ∧ lab p = a.2 then
          g a.1 a.2 * min (K q p) (K p q) + (1 - g a.1 a.2) * max (K q p) (K p q)
        else K q p) = K q p := by
        have hc2 : ¬(lab q = a.1 ∧ lab p = a.2) := by
          rintro ⟨hx, hy⟩
          apply hpair
          have hlt : lab q ≤ lab p := by rw [hx, hy]; exact hija
          rw [min_eq_right hlt, max_eq_left hlt]
          exact Prod.ext hx hy
        have hc1 : ¬(lab q = a.2 ∧ lab p = a.1 ∧ a.1 ≠ a.2) := by
          rintro ⟨hx, hy, hne⟩
          apply hpair
          have hle : lab p ≤ lab q := by rw [hx, hy]; exact hija
          rw [min_eq_left hle, max_eq_right hle]
          exact Prod.ext hy hx
        rw [if_neg hc1, if_neg hc2]
      rw [hK1pq, hK1qp] at hR
      rw [hR]
      have hmem : ((min (lab p) (lab q), max (lab p) (lab q)) ∈ a :: L) ↔
          ((min (lab p) (lab q), max (lab p) (lab q)) ∈ L) := by
        rw [List.mem_cons]
        exact or_iff_right hpair
      by_cases hmemL : (min (lab p) (lab q), max (lab p) (lab q)) ∈ L
      · rw [if_pos hmemL, if_pos (hmem.mpr hmemL)]
      · rw [if_neg hmemL, if_neg (fun hx => hmemL (hmem.mp hx))]

theorem MNN_symmetrize_matrix_eval {n : ℕ} (g : ℕ → ℕ → ℚ) (lab : Fin n → ℕ)
    (B : ℕ) (K R : Mat n n)
    (h : MNN_symmetrize (.matrix g) lab B K = some R)
    (p q : Fin n) (hp : lab p < B) (hq : lab q < B) :
    R p q = g (min (lab p) (lab q)) (max (lab p) (lab q)) * min (K p q) (K q p)
      + (1 - g (min (lab p) (lab q)) (max (lab p) (lab q))) * max (K p q) (K q p) := by
  simp only [MNN_symmetrize] at h
  have heval := symm_foldlM_eval g lab (upperPairs B)
    (fun ij hij => ((mem_upperPairs ij).mp hij).2.2) (nodup_upperPairs B) K R h p q
  rw [if_pos ((mem_upperPairs _).mpr
    ⟨lt_of_le_of_lt (min_le_left _ _) hp, max_lt hp hq, min_le_max⟩)] at heval
  exact heval

/-- C1: for every graph variant (`kNNGraph`, `TraditionalGraph`,
`MNNGraph`) and every input, the matrix returned by `build_kernel()` is
symmetric (for `MNNGraph`, whenever the build succeeds and returns a
matrix at all). -/
theorem build_kernel_symmetric :
    (∀ (n : ℕ) (decay : Option ℚ) (thresh : ℚ) (f : ℚ → ℚ)
        (nbr : Fin n → Fin n → Bool) (dist : Fin n → Fin n → ℚ)
        (band : Fin n → ℚ) (found : Fin n → Fin n → Bool) (i j : Fin n),
      kNNGraph_build_kernel decay thresh f nbr dist band found i j =
        kNNGraph_build_kernel decay thresh f nbr dist band found j i)
    ∧ (∀ (n : ℕ) (f : ℚ → ℚ) (thresh : ℚ) (knn : ℕ)
        (precomputed : Option String) (data pdist_data : Mat n n) (i j : Fin n),
      TraditionalGraph_build_kernel f thresh knn precomputed data pdist_data i j =
        TraditionalGraph_build_kernel f thresh knn precomputed data pdist_data j i)
    ∧ (∀ (n : ℕ) (lab : Fin n → ℕ) (beta : ℚ) (γ : Gamma) (wknn : ℕ → ℕ)
        (cross : ℕ → ℕ → ℕ → Mat n n) (R : Mat n n),
      MNNGraph_build_kernel lab beta γ wknn cross = some R →
      ∀ p q : Fin n, R p q = R q p) := by
  refine ⟨?_, ?_, ?_⟩
  · intro n decay thresh f nbr dist band found i j
    exact sym_avg_symm _ i j
  · intro n f thresh knn precomputed data pdist_data i j
    exact threshold_below_symm thresh _ (fun a b => sym_avg_symm _ a b) i j
  · intro n lab beta γ wknn cross R h p q
    unfold MNNGraph_build_kernel at h
    cases hA : MNN_assemble lab beta wknn cross with
    | none => rw [hA] at h; exact Option.noConfusion h
    | some A =>
      rw [hA] at h
      replace h : MNN_symmetrize γ lab (uniqueSorted lab).length A = some R := h
      have hcan := MNN_assemble_some_canonical lab beta wknn cross A hA
      cases γ with
      | plus =>
        simp only [MNN_symmetrize] at h
        have hRf := Option.some.inj h
        rw [← hRf]
        beta_reduce
        rw [add_comm (A p q) (A q p)]
      | times =>
        simp only [MNN_symmetrize] at h
        have hRf := Option.some.inj h
        rw [← hRf]
        beta_reduce
        rw [mul_comm (A p q) (A q p)]
      | scalar g =>
        simp only [MNN_symmetrize] at h
        have hRf := Option.some.inj h
        rw [← hRf]
        beta_reduce
        rw [min_comm (A p q) (A q p), max_comm (A p q) (A q p)]
      | matrix g =>
        have hp := lab_lt_of_canonical lab hcan p
        have hq := lab_lt_of_canonical lab hcan q
        rw [MNN_symmetrize_matrix_eval g lab _ A R h p q hp hq,
          MNN_symmetrize_matrix_eval g lab _ A R h q p hq hp,
          min_comm (lab q) (lab p), max_comm (lab q) (lab p),
          min_comm (A q p) (A p q), max_comm (A q p) (A p q)]

/-- Witness for `build_kernel_symmetric`: a concrete two-batch MNN build
succeeds and its result is symmetric at `(0, 1)`. -/
theorem build_kernel_symmetric_witness :
    MNNGraph_build_kernel (![0, 1] : Fin 2 → ℕ) 1 Gamma.plus (fun _ => 5)
      (fun _ _ _ _ _ => 1) = some (fun _ _ => (1 : ℚ))
    ∧ (fun _ _ => (1 : ℚ)) (0 : Fin 2) (1 : Fin 2) =
      (fun _ _ => (1 : ℚ)) (1 : Fin 2) (0 : Fin 2) := by
  have hcan : uniqueSorted (![0, 1] : Fin 2 → ℕ) =
      List.range (uniqueSorted (![0, 1] : Fin 2 → ℕ)).length := by decide
  have hfirst : MNNGraph_build_kernel (![0, 1] : Fin 2 → ℕ) 1 Gamma.plus (fun _ => 5)
      (fun _ _ _ _ _ => 1) = some (fun _ _ => (1 : ℚ)) := by
    unfold MNNGraph_build_kernel
    rw [MNN_assemble_eval _ _ _ _ hcan, Option.some_bind]
    simp only [MNN_symmetrize]
    congr 1
    funext p q
    beta_reduce
    simp only [ite_self, mul_one]
    norm_num
  exact ⟨hfirst, build_kernel_symmetric.2.2 2 ![0, 1] 1 Gamma.plus (fun _ => 5)
    (fun _ _ _ _ _ => 1) (fun _ _ => (1 : ℚ)) hfirst 0 1⟩

/-- C6: `MNNGraph.build_kernel()` symmetrizes the assembled matrix `A`
according to the gamma policy: for scalar gamma the result is
`gamma * min(A, A.T) + (1 - gamma) * max(A, A.T)` elementwise (so gamma=1
yields the elementwise minimum and gamma=0 the elementwise maximum); for
`gamma='+'` it is `(A + A.T) / 2`; for `gamma='*'` the elementwise product
of `A` and `A.T`; for matrix gamma each batch-pair block `(i, j)` with
`i <= j` is `gamma[i,j] * min(Aij, Aji.T) + (1 - gamma[i,j]) * max(Aij, Aji.T)`
and the `(j, i)` block is its transpose. -/
theorem MNN_symmetrization_policy :
    ∀ (n : ℕ) (lab : Fin n → ℕ) (beta : ℚ) (wknn : ℕ → ℕ)
      (cross : ℕ → ℕ → ℕ → Mat n n) (A : Mat n n),
    MNN_assemble lab beta wknn cross = some A →
    (∀ g : ℚ, MNNGraph_build_kernel lab beta (.scalar g) wknn cross =
        some (fun p q => g * min (A p q) (A q p) + (1 - g) * max (A p q) (A q p)))
    ∧ (MNNGraph_build_kernel lab beta .plus wknn cross =
        some (fun p q => (A p q + A q p) / 2))
    ∧ (MNNGraph_build_kernel lab beta .times wknn cross =
        some (fun p q => A p q * A q p))
    ∧ (∀ (G : ℕ → ℕ → ℚ) (R : Mat n n) (p q : Fin n),
        MNNGraph_build_kernel lab beta (.matrix G) wknn cross = some R →
        lab p ≤ lab q →
        R p q = G (lab p) (lab q) * min (A p q) (A q p)
          + (1 - G (lab p) (lab q)) * max (A p q) (A q p)
        ∧ R q p = R p q) := by
  intro n lab beta wknn cross A hA
  refine ⟨?_, ?_, ?_, ?_⟩
  · intro g
    unfold MNNGraph_build_kernel
    rw [hA, Option.some_bind]
    simp only [MNN_symmetrize]
  · unfold MNNGraph_build_kernel
    rw [hA, Option.some_bind]
    simp only [MNN_symmetrize]
  · unfold MNNGraph_build_kernel
    rw [hA, Option.some_bind]
    simp only [MNN_symmetrize]
  · intro G R p q hbuild hle
    unfold MNNGraph_build_kernel at hbuild
    rw [hA, Option.some_bind] at hbuild
    have hcan := MNN_assemble_some_canonical lab beta wknn cross A hA
    have hp := lab_lt_of_canonical lab hcan p
    have hq := lab_lt_of_canonical lab hcan q
    have h1 := MNN_symmetrize_matrix_eval G lab _ A R hbuild p q hp hq
    have h2 := MNN_symmetrize_matrix_eval G lab _ A R hbuild q p hq hp
    rw [min_eq_left hle, max_eq_right hle] at h1
    rw [min_comm (lab q) (lab p), max_comm (lab q) (lab p),
      min_eq_left hle, max_eq_right hle,
      min_comm (A q p) (A p q), max_comm (A q p) (A p q)] at h2
    exact ⟨h1, h2.trans h1.symm⟩

/-- Witness for `MNN_symmetrization_policy`: with scalar `gamma = 0` a
concrete two-batch build returns the elementwise maximum pattern. -/
theorem MNN_symmetrization_policy_witness :
    MNNGraph_build_kernel (![0, 1] : Fin 2 → ℕ) 1 (Gamma.scalar 0) (fun _ => 5)
      (fun _ _ _ _ _ => 1) = some (fun _ _ => (1 : ℚ)) := by
  have hcan : uniqueSorted (![0, 1] : Fin 2 → ℕ) =
      List.range (uniqueSorted (![0, 1] : Fin 2 → ℕ)).length := by decide
  have hA := MNN_assemble_eval (![0, 1] : Fin 2 → ℕ) 1 (fun _ => 5)
    (fun _ _ _ _ _ => 1) hcan
  refine ((MNN_symmetrization_policy 2 ![0, 1] 1 (fun _ => 5)
    (fun _ _ _ _ _ => 1) _ hA).1 0).trans ?_
  congr 1
  funext p q
  beta_reduce
  simp only [ite_self, mul_one]
  norm_num

/-- C5: `MNNGraph.build_kernel` selects each block's rows and columns with
`self.sample_idx == i` where `i` is the ENUMERATION index of the batch
(graphs.py line 1000), not the batch label `self.samples[i]` used to build
the block (line 975).  For batch labels other than `0..B-1` — here
`[10, 10, 20, 20]` — the masks are empty while the block is nonempty, the
fancy-index assignment's shapes mismatch, and the build fails instead of
writing the block `subgraph_j.build_kernel_to_data(subgraph_i.data)`. -/
theorem MNN_assembly_fails_noncanonical_labels :
    MNNGraph_build_kernel (![10, 10, 20, 20] : Fin 4 → ℕ) 1 Gamma.plus
      (fun _ => 2) (fun _ _ _ _ _ => 1) = none := by
  decide

/-- Counterexample to C2 as stated: an `MNNGraph` with `beta = 1/2` (in
`(0, 1]`) and the default scalar `gamma = 0.99`, on two one-point batches
whose sub-kernels are the all-ones connectivity kernels, returns a kernel
whose diagonal entries equal `beta = 1/2`, not 1: the within-batch blocks
are scaled by `beta` (graphs.py line 999) and no later step restores the
unit diagonal. -/
theorem build_kernel_diagonal_counterexample :
    MNNGraph_build_kernel (![0, 1] : Fin 2 → ℕ) (1 / 2) (Gamma.scalar (99 / 100))
      (fun _ => 5) (fun _ _ _ _ _ => 1) = some ![![1 / 2, 1], ![1, 1 / 2]]
    ∧ ((1 : ℚ) / 2 ≠ 1) := by
  constructor
  · have hcan : uniqueSorted (![0, 1] : Fin 2 → ℕ) =
        List.range (uniqueSorted (![0, 1] : Fin 2 → ℕ)).length := by decide
    unfold MNNGraph_build_kernel
    rw [MNN_assemble_eval _ _ _ _ hcan, Option.some_bind]
    simp only [MNN_symmetrize]
    congr 1
    funext p q
    beta_reduce
    fin_cases p <;> fin_cases q <;>
      norm_num [Matrix.cons_val_zero, Matrix.cons_val_one, Matrix.head_cons,
        min_self, max_self]
  · norm_num

/-- C2 (amended): the diagonal of `build_kernel()` is 1 for `kNNGraph`
(binary mode with self in the neighbour set; decay mode with zero
self-distance, positive bandwidth, `f 0 = 1` and `thresh <= 1`) and for
`TraditionalGraph` with `precomputed='adjacency'`, `'distance'` or `None`
(zero diagonal distances, positive bandwidth, `thresh <= 1`); for
`precomputed='affinity'` the diagonal is the input's own diagonal,
thresholded, NOT forced to 1; and for `MNNGraph` with scalar gamma and
unit-diagonal sub-kernels every diagonal entry equals `beta`, hence 1 only
when `beta = 1`. -/
theorem build_kernel_diagonal_amended :
    (∀ (n : ℕ) (decay : Option ℚ) (thresh : ℚ) (f : ℚ → ℚ)
        (nbr : Fin n → Fin n → Bool) (dist : Fin n → Fin n → ℚ)
        (band : Fin n → ℚ) (found : Fin n → Fin n → Bool) (i : Fin n),
      (decay = none ∨ thresh = 1) → nbr i i = true →
      kNNGraph_build_kernel decay thresh f nbr dist band found i i = 1)
    ∧ (∀ (n : ℕ) (decay : Option ℚ) (thresh : ℚ) (f : ℚ → ℚ)
        (nbr : Fin n → Fin n → Bool) (dist : Fin n → Fin n → ℚ)
        (band : Fin n → ℚ) (found : Fin n → Fin n → Bool) (i : Fin n),
      ¬(decay = none ∨ thresh = 1) → found i i = true → dist i i = 0 →
      0 < band i → f 0 = 1 → thresh ≤ 1 →
      kNNGraph_build_kernel decay thresh f nbr dist band found i i = 1)
    ∧ (∀ (n : ℕ) (f : ℚ → ℚ) (thresh : ℚ) (knn : ℕ) (data pdist_data : Mat n n)
        (i : Fin n), thresh ≤ 1 →
      TraditionalGraph_build_kernel f thresh knn (some "adjacency")
        data pdist_data i i = 1)
    ∧ (∀ (n : ℕ) (f : ℚ → ℚ) (thresh : ℚ) (knn : ℕ) (data pdist_data : Mat n n)
        (i : Fin n), data i i = 0 → 0 < trad_epsilon data knn i →
      f 0 = 1 → thresh ≤ 1 →
      TraditionalGraph_build_kernel f thresh knn (some "distance")
        data pdist_data i i = 1)
    ∧ (∀ (n : ℕ) (f : ℚ → ℚ) (thresh : ℚ) (knn : ℕ) (data pdist_data : Mat n n)
        (i : Fin n), pdist_data i i = 0 → 0 < trad_epsilon pdist_data knn i →
      f 0 = 1 → thresh ≤ 1 →
      TraditionalGraph_build_kernel f thresh knn none data pdist_data i i = 1)
    ∧ (∀ (n : ℕ) (f : ℚ → ℚ) (thresh : ℚ) (knn : ℕ) (data pdist_data : Mat n n)
        (i : Fin n),
      TraditionalGraph_build_kernel f thresh knn (some "affinity")
        data pdist_data i i = (if data i i < thresh then 0 else data i i))
    ∧ (∀ (n : ℕ) (lab : Fin n → ℕ) (beta g : ℚ) (wknn : ℕ → ℕ)
        (cross : ℕ → ℕ → ℕ → Mat n n) (R : Mat n n),
      (∀ k l (p : Fin n), cross k l l p p = 1) →
      MNNGraph_build_kernel lab beta (.scalar g) wknn cross = some R →
      ∀ p : Fin n, R p p = beta) := by
  refine ⟨?_, ?_, ?_, ?_, ?_, ?_, ?_⟩
  · intro n decay thresh f nbr dist band found i hbin hnbr
    show sym_avg _ i i = 1
    rw [if_pos hbin]
    simp [sym_avg, connectivity, hnbr]
  · intro n decay thresh f nbr dist band found i hcond hfd hdist _ hf0 hth
    show sym_avg _ i i = 1
    rw [if_neg hcond]
    have hval : build_kernel_to_data f thresh dist band found i i = 1 := by
      simp only [build_kernel_to_data, hfd, if_true, hdist, zero_div, hf0]
      rw [if_neg (not_lt.mpr hth)]
    simp [sym_avg, hval]
  · intro n f thresh knn data pdist_data i hth
    have h2 : ((1 : ℚ) + 1) / 2 = 1 := by norm_num
    simp [TraditionalGraph_build_kernel, threshold_below, sym_avg, set_diagonal, h2]
    exact hth
  · intro n f thresh knn data pdist_data i hdist _ hf0 hth
    have h2 : ((1 : ℚ) + 1) / 2 = 1 := by norm_num
    simp [TraditionalGraph_build_kernel, threshold_below, sym_avg, hdist, hf0, h2]
    exact hth
  · intro n f thresh knn data pdist_data i hdist _ hf0 hth
    have h2 : ((1 : ℚ) + 1) / 2 = 1 := by norm_num
    simp [TraditionalGraph_build_kernel, threshold_below, sym_avg, hdist, hf0, h2]
    exact hth
  · intro n f thresh knn data pdist_data i
    have hdd : (data i i + data i i) / 2 = data i i := by ring
    simp [TraditionalGraph_build_kernel, threshold_below, sym_avg, hdd]
  · intro n lab beta g wknn cross R hdiag hbuild p
    unfold MNNGraph_build_kernel at hbuild
    cases hA : MNN_assemble lab beta wknn cross with
    | none => rw [hA] at hbuild; exact Option.noConfusion hbuild
    | some A =>
      rw [hA, Option.some_bind] at hbuild
      have hcan := MNN_assemble_some_canonical lab beta wknn cross A hA
      have hAe : A = fun p q => (if lab p = lab q then beta else 1) *
          cross (wknn (lab p)) (lab p) (lab q) p q :=
        Option.some.inj (hA.symm.trans (MNN_assemble_eval lab beta wknn cross hcan))
      simp only [MNN_symmetrize] at hbuild
      rw [← Option.some.inj hbuild]
      beta_reduce
      rw [min_self, max_self, hAe]
      beta_reduce
      rw [if_pos rfl, hdiag (wknn (lab p)) (lab p) p, mul_one]
      ring

/-- Witness for `build_kernel_diagonal_amended`: a concrete precomputed
adjacency matrix gets a unit diagonal. -/
theorem build_kernel_diagonal_amended_witness :
    TraditionalGraph_build_kernel (fun x => x) (1 / 10) 1 (some "adjacency")
      ![![(5 : ℚ)]] ![![(0 : ℚ)]] 0 0 = 1 :=
  build_kernel_diagonal_amended.2.2.1 1 (fun x => x) (1 / 10) 1 ![![(5 : ℚ)]]
    ![![(0 : ℚ)]] 0 (by norm_num)

/-! ### Landmark helper lemmas -/

theorem mem_landmarksList {n L : ℕ} (clusters : Fin n → Fin L) (l : Fin L) :
    l ∈ landmarksList clusters ↔ ∃ p, clusters p = l := by
  unfold landmarksList
  rw [(List.perm_insertionSort (· ≤ ·) _).mem_iff, List.mem_dedup]
  simp

theorem nodup_landmarksList {n L : ℕ} (clusters : Fin n → Fin L) :
    (landmarksList clusters).Nodup :=
  (List.perm_insertionSort (· ≤ ·) _).nodup_iff.mpr (List.nodup_dedup _)

theorem toFinset_landmarksList {n L : ℕ} (clusters : Fin n → Fin L) :
    (landmarksList clusters).toFinset = Finset.image clusters Finset.univ := by
  apply Finset.ext
  intro l
  rw [List.mem_toFinset, mem_landmarksList, Finset.mem_image]
  constructor
  · rintro ⟨p, hp⟩
    exact ⟨p, Finset.mem_univ p, hp⟩
  · rintro ⟨p, _, hp⟩
    exact ⟨p, hp⟩

theorem sum_over_landmarks {n L : ℕ} (clusters : Fin n → Fin L) (F : Fin L → ℚ) :
    ∑ a : Fin (numLandmarks clusters), F ((landmarksList clusters).get a) =
      ∑ l ∈ Finset.image clusters Finset.univ, F l := by
  rw [← toFinset_landmarksList clusters,
    List.sum_toFinset F (nodup_landmarksList clusters),
    ← List.ofFn_get_eq_map (landmarksList clusters) F, List.sum_ofFn]
  rfl

theorem pmn_raw_nonneg {n L : ℕ} (K : Mat n n) (clusters : Fin n → Fin L)
    (hK : ∀ t s, 0 ≤ K t s) (a : Fin (numLandmarks clusters)) (s : Fin n) :
    0 ≤ pmn_raw K clusters a s :=
  Finset.sum_nonneg fun t _ => hK t s

theorem sum_pmn_raw_col {n L : ℕ} (K : Mat n n) (clusters : Fin n → Fin L)
    (s : Fin n) :
    ∑ a : Fin (numLandmarks clusters), pmn_raw K clusters a s = ∑ t, K t s := by
  unfold pmn_raw
  rw [sum_over_landmarks clusters
    (fun l => ∑ t ∈ Finset.univ.filter (fun t => clusters t = l), K t s)]
  exact Finset.sum_fiberwise_of_maps_to
    (fun t _ => Finset.mem_image_of_mem clusters (Finset.mem_univ t)) _

theorem pmn_raw_row_sum_pos {n L : ℕ} (K : Mat n n) (clusters : Fin n → Fin L)
    (hK : ∀ t s, 0 ≤ K t s) (hdiag : ∀ t, 0 < K t t)
    (a : Fin (numLandmarks clusters)) :
    0 < ∑ s, pmn_raw K clusters a s := by
  obtain ⟨t0, ht0⟩ := (mem_landmarksList clusters _).mp
    ((landmarksList clusters).get_mem a.1 a.2)
  have h1 : K t0 t0 ≤ pmn_raw K clusters a t0 := by
    unfold pmn_raw
    exact Finset.single_le_sum (fun t _ => hK t t0)
      (Finset.mem_filter.mpr ⟨Finset.mem_univ t0, ht0⟩)
  have h2 : pmn_raw K clusters a t0 ≤ ∑ s, pmn_raw K clusters a s :=
    Finset.single_le_sum (fun s _ => pmn_raw_nonneg K clusters hK a s)
      (Finset.mem_univ t0)
  exact lt_of_lt_of_le (hdiag t0) (le_trans h1 h2)

theorem l1normalizeRow_sum {k : ℕ} (v : Fin k → ℚ) (hv : ∀ j, 0 ≤ v j)
    (hpos : 0 < ∑ j, v j) : ∑ j, l1normalizeRow v j = 1 := by
  have habs : ∑ j, |v j| = ∑ j, v j :=
    Finset.sum_congr rfl fun j _ => abs_of_nonneg (hv j)
  simp only [l1normalizeRow, habs]
  rw [if_neg (ne_of_gt hpos)]
  rw [← Finset.sum_div]
  exact div_self (ne_of_gt hpos)

/-- C7: after `build_landmark_op()`, every row of `pmn` and `pnm` sums to 1
(L1 row normalization), the landmark operator `pmn . pnm` is an `m x m`
matrix (enforced here by its type `Fin m → Fin m → ℚ` and itself
row-stochastic), and `m` is the number of distinct non-empty clusters
produced by k-means, which is at most `n_landmark`.  The hypotheses state
that the host kernel is nonnegative with a positive diagonal. -/
theorem landmark_transitions_row_stochastic :
    ∀ (n L : ℕ) (K : Mat n n) (clusters : Fin n → Fin L),
    (∀ t s, 0 ≤ K t s) → (∀ t, 0 < K t t) →
    (∀ a : Fin (numLandmarks clusters), ∑ s, pmn_norm K clusters a s = 1)
    ∧ (∀ s : Fin n, ∑ a, pnm_norm K clusters s a = 1)
    ∧ (∀ a : Fin (numLandmarks clusters), ∑ b, landmark_op K clusters a b = 1)
    ∧ numLandmarks clusters = (Finset.image clusters Finset.univ).card
    ∧ numLandmarks clusters ≤ L := by
  intro n L K clusters hK hdiag
  have hpmn : ∀ a : Fin (numLandmarks clusters),
      ∑ s, pmn_norm K clusters a s = 1 := fun a =>
    l1normalizeRow_sum _ (fun s => pmn_raw_nonneg K clusters hK a s)
      (pmn_raw_row_sum_pos K clusters hK hdiag a)
  have hpnm : ∀ s : Fin n, ∑ a, pnm_norm K clusters s a = 1 := by
    intro s
    apply l1normalizeRow_sum _ (fun a => pmn_raw_nonneg K clusters hK a s)
    rw [sum_pmn_raw_col]
    exact lt_of_lt_of_le (hdiag s)
      (Finset.single_le_sum (fun t _ => hK t s) (Finset.mem_univ s))
  refine ⟨hpmn, hpnm, ?_, ?_, ?_⟩
  · intro a
    unfold landmark_op
    rw [Finset.sum_comm]
    calc ∑ s : Fin n, ∑ b, pmn_norm K clusters a s * pnm_norm K clusters s b
        = ∑ s : Fin n, pmn_norm K clusters a s *
            ∑ b, pnm_norm K clusters s b := by
          exact Finset.sum_congr rfl fun s _ => (Finset.mul_sum _ _ _).symm
      _ = ∑ s : Fin n, pmn_norm K clusters a s := by
          exact Finset.sum_congr rfl fun s _ => by rw [hpnm s, mul_one]
      _ = 1 := hpmn a
  · show (landmarksList clusters).length = _
    rw [← List.toFinset_card_of_nodup (nodup_landmarksList clusters),
      toFinset_landmarksList]
  · show (landmarksList clusters).length ≤ L
    rw [← List.toFinset_card_of_nodup (nodup_landmarksList clusters),
      toFinset_landmarksList]
    exact (Finset.card_le_univ _).trans_eq (by simp)

/-- Witness for `landmark_transitions_row_stochastic`: two points in one
cluster with the identity kernel give a row-stochastic `pnm` and one
realized landmark. -/
theorem landmark_transitions_row_stochastic_witness :
    (∑ a, pnm_norm ![![(1 : ℚ), 0], ![0, 1]] (fun _ : Fin 2 => (0 : Fin 1))
      (0 : Fin 2) a) = 1
    ∧ numLandmarks (fun _ : Fin 2 => (0 : Fin 1)) ≤ 1 := by
  have h := landmark_transitions_row_stochastic 2 1 ![![(1 : ℚ), 0], ![0, 1]]
    (fun _ => 0) (by decide) (by norm_num [Matrix.cons_val_zero, Matrix.cons_val_one,
      Matrix.head_cons, Fin.forall_fin_two])
  exact ⟨h.2.1 0, h.2.2.2.2⟩
